import Mathlib

/-!
Verification of the line-oriented binary→hex converter (`convert.go`):
the binary/hex codec (`binToHex`, `hexToBin`), the bounded FIFO cache
(`NewCache`, `Cache.Get`, `Cache.Set`) and the two line pipelines
(`convertWithCache`, `convertWithoutCache`).

Go strings are modelled as their lists of bytes (`List Nat`); all inputs of
interest are ASCII, where one character is one byte.  Go byte arithmetic is
carried out modulo 256.  A Go function returning `(T, error)` is modelled as
`Option`: `some` for a nil error.  A Go runtime fault (index out of range) is
modelled by `none` (for `Cache.Set`) or by a dedicated `Outcome.panicked`
constructor in the pipelines, kept distinct from `Outcome.errored`, which
models returning a non-nil error value.
-/

/-- A Go string, as its list of bytes (ASCII code points). -/
abbrev Str := List Nat

/-- Bytes of a Lean string literal (ASCII), for concrete test inputs. -/
def s2b (s : String) : Str := s.data.map Char.toNat

/-- One step of Go `binByte = binByte<<1 | (binStr[i+j] - '0')`:
byte arithmetic, so both the shift and the subtraction are taken mod 256
(`'0'` is byte 48, and `c - 48` on bytes is `(c + 208) % 256`). -/
def byteStep (acc c : Nat) : Nat := Nat.lor (acc * 2 % 256) ((c + 208) % 256)

/-- Value of one (at most 8 bit) group: the inner loop of Go `binToHex`,
starting from `binByte = 0`. -/
def toByte (g : Str) : Nat := g.foldl byteStep 0

/-- The grouping of Go `binToHex`'s outer loop: chunks of 8 characters from
the left; a final group of fewer than 8 characters still yields one byte. -/
def binBytes : Str → List Nat
  | [] => []
  | c1 :: c2 :: c3 :: c4 :: c5 :: c6 :: c7 :: c8 :: rest =>
      toByte [c1, c2, c3, c4, c5, c6, c7, c8] :: binBytes rest
  | s => [toByte s]

/-- Go `encoding/hex` digit table `"0123456789abcdef"` at index `n`. -/
def lowerHexDigit (n : Nat) : Nat := if n < 10 then 48 + n else 87 + n

/-- Go `hex.EncodeToString`: two lowercase hex digits per byte, high nibble
first (`b>>4` then `b&0x0f`; all produced bytes are < 256). -/
def hexEncode (bs : List Nat) : Str :=
  bs.flatMap fun b => [lowerHexDigit (b / 16), lowerHexDigit (b % 16)]

/-- Go `strings.ToUpper` on one ASCII byte. -/
def toUpperChar (c : Nat) : Nat := if 97 ≤ c ∧ c ≤ 122 then c - 32 else c

/-- Go `binToHex`.  The Go function's error result is always nil, which is
modelled by always returning `some`. -/
def binToHex (binStr : Str) : Option Str :=
  some ((hexEncode (binBytes binStr)).map toUpperChar)

/-- Go `encoding/hex` `fromHexChar`: value of one hex digit byte. -/
def hexDigitVal (c : Nat) : Option Nat :=
  if 48 ≤ c ∧ c ≤ 57 then some (c - 48)
  else if 97 ≤ c ∧ c ≤ 102 then some (c - 87)
  else if 65 ≤ c ∧ c ≤ 70 then some (c - 55)
  else none

/-- Go `hex.DecodeString`: consecutive pairs of hex digits become bytes;
an odd-length input or an invalid digit is an error (`none`). -/
def hexToBytes : Str → Option (List Nat)
  | [] => some []
  | [_] => none
  | a :: b :: rest =>
    match hexDigitVal a, hexDigitVal b, hexToBytes rest with
    | some hi, some lo, some tl => some ((hi * 16 + lo) :: tl)
    | _, _, _ => none

/-- Most-significant-bit-first binary rendering of `v` with width `w`:
Go `fmt.Sprintf("%08b", b)` at `w = 8` for byte values `b < 256`. -/
def bitsOfNat : Nat → Nat → Str
  | 0, _ => []
  | w + 1, v => bitsOfNat w (v / 2) ++ [if v % 2 = 1 then 49 else 48]

/-- One decoded byte rendered as exactly 8 binary digit characters. -/
def byteToBits (b : Nat) : Str := bitsOfNat 8 b

/-- Go `hexToBin`: decode the hex string, then render each byte with
`%08b` and concatenate. -/
def hexToBin (hexStr : Str) : Option Str :=
  match hexToBytes hexStr with
  | some bs => some (bs.flatMap byteToBits)
  | none => none

/-- `decode ∘ encode`: `hexToBin` applied to the output of `binToHex`. -/
def decodeEncode (b : Str) : Option Str :=
  match binToHex b with
  | some h => hexToBin h
  | none => none

/-- The Go `Cache` struct: a capacity, a key→value map (modelled as an
association list kept in insertion order; the Go map's keys are exactly
those inserted and never repeated), and the `keys` slice recording
insertion order. -/
structure Cache where
  maxEntries : Nat
  entries : List (Str × Str)
  keys : List Str
deriving DecidableEq

/-- Lookup in the Go map `c.entries` (`val, exists := c.entries[key]`). -/
def lookupEntry : List (Str × Str) → Str → Option Str
  | [], _ => none
  | kv :: rest, k => if kv.1 = k then some kv.2 else lookupEntry rest k

/-- Go `delete(c.entries, key)`. -/
def removeEntry (es : List (Str × Str)) (k : Str) : List (Str × Str) :=
  es.filter fun kv => kv.1 != k

/-- Go `NewCache`: empty map, empty key slice, given capacity. -/
def NewCache (maxEntries : Nat) : Cache := ⟨maxEntries, [], []⟩

/-- Go `(*Cache).Get`: lookup without side effects. -/
def Cache.Get (c : Cache) (key : Str) : Option Str := lookupEntry c.entries key

/-- Go `(*Cache).Set`.  If the key is present: no-op.  Otherwise, when the
map has reached capacity the code reads `c.keys[0]`; on an empty `keys`
slice this is an index-out-of-range fault, modelled as `none`.  Otherwise
the oldest key is evicted and the new pair appended. -/
def Cache.Set (c : Cache) (key value : Str) : Option Cache :=
  match lookupEntry c.entries key with
  | some _ => some c
  | none =>
    if c.entries.length ≥ c.maxEntries then
      match c.keys with
      | [] => none
      | oldestKey :: restKeys =>
        some ⟨c.maxEntries,
              removeEntry c.entries oldestKey ++ [(key, value)],
              restKeys ++ [key]⟩
    else
      some ⟨c.maxEntries, c.entries ++ [(key, value)], c.keys ++ [key]⟩

/-- Result of running a piece of the pipeline: normal value, runtime fault
(index out of range), or returned non-nil error. -/
inductive Outcome (α : Type) where
  | ok (val : α)
  | panicked
  | errored
deriving DecidableEq

/-- Go `strings.Split(line, ":")`: all segments between colons
(always at least one segment). -/
def splitOnColon : Str → List Str
  | [] => [[]]
  | c :: rest =>
    if c = 58 then [] :: splitOnColon rest
    else
      match splitOnColon rest with
      | [] => [[c]]
      | p :: ps => (c :: p) :: ps

/-- `parts[0]` and `parts[1]` of the split line, as read by both pipeline
loops; `none` models the index-out-of-range fault when the line has no
colon (`parts` has a single element). -/
def lineParts (line : Str) : Option (Str × Str) :=
  match splitOnColon line with
  | matrixSize :: binaryStr :: _ => some (matrixSize, binaryStr)
  | _ => none

/-- The shared miss-path body of both pipeline loops: split the line,
convert the payload, and compose `matrixSize + ":" + hexStr`. -/
def encodeLine (line : Str) : Outcome Str :=
  match lineParts line with
  | none => .panicked
  | some (matrixSize, binaryStr) =>
    match binToHex binaryStr with
    | some hexStr => .ok (matrixSize ++ 58 :: hexStr)
    | none => .errored

/-- Go `convertWithoutCache`, over the scanned input lines (file I/O is
abstracted to the list of lines read and the list of lines written). -/
def convertWithoutCache : List Str → Outcome (List Str)
  | [] => .ok []
  | line :: rest =>
    match encodeLine line with
    | .ok newLine =>
      match convertWithoutCache rest with
      | .ok outs => .ok (newLine :: outs)
      | .panicked => .panicked
      | .errored => .errored
    | .panicked => .panicked
    | .errored => .errored

/-- Go `convertWithCache`, over the scanned input lines: on a hit the
cached line is written; on a miss the line is converted, the cache is
populated with (whole input line → composed output line), and the new
line written. -/
def convertWithCache : List Str → Cache → Outcome (List Str × Cache)
  | [], cache => .ok ([], cache)
  | line :: rest, cache =>
    match cache.Get line with
    | some cachedValue =>
      match convertWithCache rest cache with
      | .ok (outs, c) => .ok (cachedValue :: outs, c)
      | .panicked => .panicked
      | .errored => .errored
    | none =>
      match encodeLine line with
      | .ok newLine =>
        match cache.Set line newLine with
        | some cacheNext =>
          match convertWithCache rest cacheNext with
          | .ok (outs, c) => .ok (newLine :: outs, c)
          | .panicked => .panicked
          | .errored => .errored
        | none => .panicked
      | .panicked => .panicked
      | .errored => .errored

/-- A binary digit byte (`'0'` or `'1'`). -/
def isBin (c : Nat) : Bool := c == 48 || c == 49

/-- A line the spec calls well-formed: it contains a `:` (so `parts[1]`
exists) and the payload read by the code consists of binary digits. -/
def wellFormedLine (line : Str) : Bool :=
  match lineParts line with
  | some (_, payload) => payload.all isBin
  | none => false

/-- One cache operation, for stating the cache invariant over arbitrary
operation sequences. -/
inductive CacheOp where
  | get (k : Str)
  | set (k v : Str)

/-- Run a sequence of cache operations; `Get` has no side effects, `Set`
may fault (`none`). -/
def runOps : List CacheOp → Cache → Option Cache
  | [], c => some c
  | .get _ :: rest, c => runOps rest c
  | .set k v :: rest, c =>
    match c.Set k v with
    | some cNext => runOps rest cNext
    | none => none

/-- Insert a list of key/value pairs in order with `Set`. -/
def insertAll : List (Str × Str) → Cache → Option Cache
  | [], c => some c
  | kv :: rest, c =>
    match c.Set kv.1 kv.2 with
    | some cNext => insertAll rest cNext
    | none => none

/-- The cache data-model invariant of the spec: the ordered `keys`
sequence lists exactly the keys present in the mapping, in insertion
order (oldest first) and without repetition, and the number of entries
never exceeds the capacity. -/
def CacheInv (c : Cache) : Prop :=
  c.entries.map Prod.fst = c.keys ∧ c.keys.Nodup ∧
    c.entries.length ≤ c.maxEntries

/-! ### Bit-level facts about `byteStep` and `toByte` (helper definitions) -/

/-- Numeric value of a binary digit byte. -/
def bitVal (c : Nat) : Nat := if c = 49 then 1 else 0

/-- Mathematical value of a binary digit string, most significant bit
first. -/
def bitsVal (g : Str) : Nat := g.foldl (fun a c => 2 * a + bitVal c) 0

theorem bitVal_le_one (c : Nat) : bitVal c ≤ 1 := by
  unfold bitVal; split <;> omega

theorem byteStep_48 : ∀ a < 128, byteStep a 48 = 2 * a := by decide

theorem byteStep_49 : ∀ a < 128, byteStep a 49 = 2 * a + 1 := by decide

theorem byteStep_lt (acc c : Nat) : byteStep acc c < 256 := by
  have h1 : acc * 2 % 256 < 2 ^ 8 := Nat.mod_lt _ (by norm_num)
  have h2 : (c + 208) % 256 < 2 ^ 8 := Nat.mod_lt _ (by norm_num)
  simpa [byteStep] using Nat.or_lt_two_pow h1 h2

theorem foldl_byteStep_lt : ∀ (g : Str) (acc : Nat), acc < 256 →
    g.foldl byteStep acc < 256 := by
  intro g
  induction g with
  | nil => intro acc h; simpa using h
  | cons c g ih =>
    intro acc _
    simpa using ih (byteStep acc c) (byteStep_lt acc c)

theorem toByte_lt (g : Str) : toByte g < 256 :=
  foldl_byteStep_lt g 0 (by norm_num)

theorem foldl_byteStep_eq : ∀ (g : Str), (∀ c ∈ g, c = 48 ∨ c = 49) →
    ∀ acc, g.length ≤ 8 → acc < 2 ^ (8 - g.length) →
    g.foldl byteStep acc = g.foldl (fun a c => 2 * a + bitVal c) acc := by
  intro g
  induction g with
  | nil => intro _ acc _ _; rfl
  | cons c g ih =>
    intro hb acc hlen hacc
    have hc : c = 48 ∨ c = 49 := hb c (by simp)
    have hglen : g.length ≤ 7 := by simp at hlen; omega
    have hexp : 8 - (c :: g).length ≤ 7 := by
      simp only [List.length_cons]; omega
    have hacc128 : acc < 128 := by
      calc acc < 2 ^ (8 - (c :: g).length) := hacc
        _ ≤ 2 ^ 7 := Nat.pow_le_pow_right (by norm_num) hexp
    have hstep : byteStep acc c = 2 * acc + bitVal c := by
      rcases hc with rfl | rfl
      · simpa [bitVal] using byteStep_48 acc hacc128
      · simpa [bitVal] using byteStep_49 acc hacc128
    have hnext : 2 * acc + bitVal c < 2 ^ (8 - g.length) := by
      have h1 : bitVal c ≤ 1 := bitVal_le_one c
      have h4 : 2 ^ (8 - g.length) = 2 ^ (8 - (c :: g).length) * 2 := by
        have h2 : (8 - g.length) = (8 - (c :: g).length) + 1 := by
          simp only [List.length_cons]; omega
        rw [h2, Nat.pow_succ]
      omega
    simp only [List.foldl_cons, hstep]
    exact ih (fun x hx => hb x (by simp [hx])) _ (by omega) hnext

theorem toByte_eq_bitsVal (g : Str) (hb : ∀ c ∈ g, c = 48 ∨ c = 49)
    (hlen : g.length ≤ 8) : toByte g = bitsVal g :=
  foldl_byteStep_eq g hb 0 hlen (Nat.pos_pow_of_pos _ (by norm_num))

/-! ### `bitsOfNat` inverts `bitsVal` and conversely -/

theorem bitsOfNat_zero : ∀ w, bitsOfNat w 0 = List.replicate w 48 := by
  intro w
  induction w with
  | zero => rfl
  | succ w ih => simp [bitsOfNat, ih, List.replicate_succ']

theorem length_bitsOfNat : ∀ w v, (bitsOfNat w v).length = w := by
  intro w
  induction w with
  | zero => intro v; rfl
  | succ w ih => intro v; simp [bitsOfNat, ih]

theorem mem_bitsOfNat : ∀ w v c, c ∈ bitsOfNat w v → c = 48 ∨ c = 49 := by
  intro w
  induction w with
  | zero => intro v c h; simp [bitsOfNat] at h
  | succ w ih =>
    intro v c h
    simp only [bitsOfNat, List.mem_append, List.mem_singleton] at h
    rcases h with h | h
    · exact ih _ c h
    · subst h; split <;> simp

theorem bitsVal_concat (g : Str) (c : Nat) :
    bitsVal (g ++ [c]) = 2 * bitsVal g + bitVal c := by
  simp [bitsVal, List.foldl_append]

theorem bitsOfNat_of_bitsVal : ∀ (w : Nat) (g : Str),
    (∀ c ∈ g, c = 48 ∨ c = 49) → g.length ≤ w →
    bitsOfNat w (bitsVal g) = List.replicate (w - g.length) 48 ++ g := by
  intro w
  induction w with
  | zero =>
    intro g _ hlen
    have : g = [] := List.eq_nil_of_length_eq_zero (Nat.le_zero.mp hlen)
    subst this; rfl
  | succ w ih =>
    intro g hb hlen
    rcases List.eq_nil_or_concat g with rfl | ⟨g, c, rfl⟩
    · show bitsOfNat (w + 1) 0 = _
      simp [bitsOfNat_zero]
    · rw [List.concat_eq_append] at hb hlen ⊢
      have hc : c = 48 ∨ c = 49 := hb c (by simp)
      have hb' : ∀ x ∈ g, x = 48 ∨ x = 49 := fun x hx => hb x (by simp [hx])
      have hlen' : g.length ≤ w := by simp at hlen; omega
      have hbv : bitVal c ≤ 1 := bitVal_le_one c
      rw [bitsVal_concat]
      show bitsOfNat w ((2 * bitsVal g + bitVal c) / 2) ++
          [if (2 * bitsVal g + bitVal c) % 2 = 1 then 49 else 48] = _
      have hdiv : (2 * bitsVal g + bitVal c) / 2 = bitsVal g := by omega
      have hmod : (2 * bitsVal g + bitVal c) % 2 = bitVal c := by omega
      rw [hdiv, hmod, ih g hb' hlen']
      have hch : (if bitVal c = 1 then 49 else 48) = c := by
        rcases hc with rfl | rfl <;> simp [bitVal]
      rw [hch]
      have hln : w + 1 - (g ++ [c]).length = w - g.length := by
        simp only [List.length_append, List.length_cons, List.length_nil]; omega
      rw [hln, List.append_assoc]

theorem bitsVal_bitsOfNat : ∀ (w v : Nat),
    bitsVal (bitsOfNat w v) = v % 2 ^ w := by
  intro w
  induction w with
  | zero => intro v; simp [bitsOfNat, bitsVal, Nat.mod_one]
  | succ w ih =>
    intro v
    show bitsVal (bitsOfNat w (v / 2) ++ [if v % 2 = 1 then 49 else 48]) = _
    rw [bitsVal_concat, ih]
    have hbit : bitVal (if v % 2 = 1 then 49 else 48) = v % 2 := by
      rcases Nat.mod_two_eq_zero_or_one v with h | h <;> simp [h, bitVal]
    rw [hbit]
    have hmm : 2 * (v / 2 % 2 ^ w) = 2 * (v / 2) % (2 * 2 ^ w) :=
      (Nat.mul_mod_mul_left 2 (v / 2) (2 ^ w)).symm
    have hlt : v / 2 % 2 ^ w < 2 ^ w := Nat.mod_lt _ (Nat.pos_pow_of_pos _ (by norm_num))
    have hpow : 2 ^ (w + 1) = 2 * 2 ^ w := by rw [Nat.pow_succ, Nat.mul_comm]
    have hv : v = 2 * (v / 2) + v % 2 := by omega
    have hv2 : v % 2 < 2 := Nat.mod_lt _ (by norm_num)
    calc 2 * (v / 2 % 2 ^ w) + v % 2
        = (2 * (v / 2) % (2 * 2 ^ w) + (v % 2) % (2 * 2 ^ w)) % (2 * 2 ^ w) := by
          rw [← hmm]
          have h1 : (v % 2) % (2 * 2 ^ w) = v % 2 :=
            Nat.mod_eq_of_lt (by have := Nat.pos_pow_of_pos w (show 0 < 2 by norm_num); omega)
          rw [h1]
          exact (Nat.mod_eq_of_lt (by omega)).symm
      _ = (2 * (v / 2) + v % 2) % (2 * 2 ^ w) := (Nat.add_mod _ _ _).symm
      _ = v % 2 ^ (w + 1) := by rw [← hv, hpow]

theorem byteToBits_toByte (g : Str) (hb : ∀ c ∈ g, c = 48 ∨ c = 49)
    (hlen : g.length ≤ 8) :
    byteToBits (toByte g) = List.replicate (8 - g.length) 48 ++ g := by
  rw [byteToBits, toByte_eq_bitsVal g hb hlen]
  exact bitsOfNat_of_bitsVal 8 g hb hlen

theorem toByte_byteToBits (b : Nat) (hb : b < 256) :
    toByte (byteToBits b) = b := by
  have hbin : ∀ c ∈ byteToBits b, c = 48 ∨ c = 49 := fun c hc => mem_bitsOfNat 8 b c hc
  have hlen : (byteToBits b).length = 8 := length_bitsOfNat 8 b
  rw [toByte_eq_bitsVal _ hbin (by omega), byteToBits, bitsVal_bitsOfNat]
  exact Nat.mod_eq_of_lt hb

/-! ### Hex digits round-trip -/

theorem hexDigit_roundtrip :
    ∀ d < 16, hexDigitVal (toUpperChar (lowerHexDigit d)) = some d := by decide

theorem hexDigitVal_lt (c n : Nat) (h : hexDigitVal c = some n) : n < 16 := by
  unfold hexDigitVal at h
  split_ifs at h <;> simp_all <;> omega

theorem toUpper_lowerHexDigit (c n : Nat) (h : hexDigitVal c = some n) :
    toUpperChar (lowerHexDigit n) = toUpperChar c := by
  unfold hexDigitVal at h
  split_ifs at h with h1 h2 h3 <;>
    simp only [Option.some_inj] at h <;>
    subst h <;>
    unfold lowerHexDigit toUpperChar <;>
    split_ifs <;> omega

theorem hexToBytes_hexEncode : ∀ bs : List Nat, (∀ b ∈ bs, b < 256) →
    hexToBytes ((hexEncode bs).map toUpperChar) = some bs := by
  intro bs
  induction bs with
  | nil => intro _; rfl
  | cons b bs ih =>
    intro hlt
    have hb : b < 256 := hlt b (by simp)
    have hhi : b / 16 < 16 := by omega
    have hlo : b % 16 < 16 := by omega
    have e1 : hexDigitVal (toUpperChar (lowerHexDigit (b / 16))) = some (b / 16) :=
      hexDigit_roundtrip _ hhi
    have e2 : hexDigitVal (toUpperChar (lowerHexDigit (b % 16))) = some (b % 16) :=
      hexDigit_roundtrip _ hlo
    have e3 := ih fun x hx => hlt x (by simp [hx])
    have hsplit : (hexEncode (b :: bs)).map toUpperChar =
        toUpperChar (lowerHexDigit (b / 16)) :: toUpperChar (lowerHexDigit (b % 16)) ::
          (hexEncode bs).map toUpperChar := by
      simp [hexEncode]
    rw [hsplit]
    show (match hexDigitVal (toUpperChar (lowerHexDigit (b / 16))),
        hexDigitVal (toUpperChar (lowerHexDigit (b % 16))),
        hexToBytes ((hexEncode bs).map toUpperChar) with
      | some hi, some lo, some tl => some ((hi * 16 + lo) :: tl)
      | _, _, _ => none) = some (b :: bs)
    rw [e1, e2, e3]
    have hby : b / 16 * 16 + b % 16 = b := by omega
    simp [hby]

/-! ### Structure of `binBytes` -/

theorem binBytes_cons8 (c1 c2 c3 c4 c5 c6 c7 c8 : Nat) (rest : Str) :
    binBytes (c1 :: c2 :: c3 :: c4 :: c5 :: c6 :: c7 :: c8 :: rest) =
      toByte [c1, c2, c3, c4, c5, c6, c7, c8] :: binBytes rest := rfl

theorem binBytes_short (s : Str) (h0 : s ≠ []) (h7 : s.length ≤ 7) :
    binBytes s = [toByte s] := by
  rcases s with _ | ⟨a1, s⟩; · exact absurd rfl h0
  rcases s with _ | ⟨a2, s⟩; · rfl
  rcases s with _ | ⟨a3, s⟩; · rfl
  rcases s with _ | ⟨a4, s⟩; · rfl
  rcases s with _ | ⟨a5, s⟩; · rfl
  rcases s with _ | ⟨a6, s⟩; · rfl
  rcases s with _ | ⟨a7, s⟩; · rfl
  rcases s with _ | ⟨a8, s⟩; · rfl
  simp at h7

theorem length_ge8_decomp (s : Str) (h : 8 ≤ s.length) :
    ∃ c1 c2 c3 c4 c5 c6 c7 c8 rest,
      s = c1 :: c2 :: c3 :: c4 :: c5 :: c6 :: c7 :: c8 :: rest := by
  rcases s with _ | ⟨c1, s⟩
  · simp only [List.length_nil] at h; omega
  rcases s with _ | ⟨c2, s⟩
  · simp only [List.length_cons, List.length_nil] at h; omega
  rcases s with _ | ⟨c3, s⟩
  · simp only [List.length_cons, List.length_nil] at h; omega
  rcases s with _ | ⟨c4, s⟩
  · simp only [List.length_cons, List.length_nil] at h; omega
  rcases s with _ | ⟨c5, s⟩
  · simp only [List.length_cons, List.length_nil] at h; omega
  rcases s with _ | ⟨c6, s⟩
  · simp only [List.length_cons, List.length_nil] at h; omega
  rcases s with _ | ⟨c7, s⟩
  · simp only [List.length_cons, List.length_nil] at h; omega
  rcases s with _ | ⟨c8, s⟩
  · simp only [List.length_cons, List.length_nil] at h; omega
  exact ⟨c1, c2, c3, c4, c5, c6, c7, c8, s, rfl⟩

theorem binBytes_lt (s : Str) : ∀ b ∈ binBytes s, b < 256 := by
  induction s using binBytes.induct with
  | case1 => intro b hb; simp [binBytes] at hb
  | case2 c1 c2 c3 c4 c5 c6 c7 c8 rest ih =>
    intro b hb
    rw [binBytes_cons8] at hb
    rcases List.mem_cons.mp hb with rfl | hb
    · exact toByte_lt _
    · exact ih b hb
  | case3 s hn hs =>
    intro b hb
    have h0 : s ≠ [] := fun h => hn h
    have h7 : s.length ≤ 7 := by
      by_contra hcon
      obtain ⟨c1, c2, c3, c4, c5, c6, c7, c8, rest, rfl⟩ :=
        length_ge8_decomp s (by omega)
      exact hs c1 c2 c3 c4 c5 c6 c7 c8 rest rfl
    rw [binBytes_short s h0 h7] at hb
    rcases List.mem_singleton.mp hb with rfl
    exact toByte_lt _

/-- `take (m + n)` splits as `take m` plus `take n` of the rest. -/
theorem take_add_split : ∀ (m n : Nat) (l : List Nat),
    l.take (m + n) = l.take m ++ (l.drop m).take n := by
  intro m
  induction m with
  | zero => intro n l; simp
  | succ m ih =>
    intro n l
    rcases l with _ | ⟨a, l⟩
    · simp
    · have : m + 1 + n = (m + n) + 1 := by omega
      rw [this]
      simp only [List.take_succ_cons, List.drop_succ_cons]
      rw [ih n l]
      simp [List.cons_append]

theorem binBytes_append8 (g t : Str) (h : g.length = 8) :
    binBytes (g ++ t) = toByte g :: binBytes t := by
  obtain ⟨c1, c2, c3, c4, c5, c6, c7, c8, rest, rfl⟩ :=
    length_ge8_decomp g (by omega)
  have hrest : rest = [] := by
    simp only [List.length_cons] at h
    exact List.eq_nil_of_length_eq_zero (by omega)
  subst hrest
  rfl

/-- Decoding the bytes produced by `binToHex`'s grouping re-reads each
group: the full groups verbatim, the final short group left-padded with
`'0'` characters inside its 8-character block. -/
theorem flatMap_binBytes_full (s : Str) (hb : ∀ c ∈ s, c = 48 ∨ c = 49)
    (h8 : s.length % 8 = 0) : (binBytes s).flatMap byteToBits = s := by
  induction s using binBytes.induct with
  | case1 => rfl
  | case2 c1 c2 c3 c4 c5 c6 c7 c8 rest ih =>
    have hg : ∀ c ∈ [c1, c2, c3, c4, c5, c6, c7, c8], c = 48 ∨ c = 49 := by
      intro c hc
      apply hb c
      simp only [List.mem_cons, List.not_mem_nil, or_false] at hc ⊢
      tauto
    have hrest : ∀ c ∈ rest, c = 48 ∨ c = 49 := by
      intro c hc
      apply hb c
      simp [hc]
    have hrl : rest.length % 8 = 0 := by
      simp only [List.length_cons] at h8
      omega
    rw [binBytes_cons8]
    simp only [List.flatMap_cons]
    rw [byteToBits_toByte _ hg (by simp), ih hrest hrl]
    simp
  | case3 s hn hs =>
    have h0 : s ≠ [] := fun h => hn h
    have h7 : s.length ≤ 7 := by
      by_contra hcon
      obtain ⟨c1, c2, c3, c4, c5, c6, c7, c8, rest, rfl⟩ :=
        length_ge8_decomp s (by omega)
      exact hs c1 c2 c3 c4 c5 c6 c7 c8 rest rfl
    have h1 : 1 ≤ s.length := by
      rcases s with _ | ⟨a, s⟩
      · exact absurd rfl h0
      · simp
    omega

theorem flatMap_binBytes_partial (s : Str) (hb : ∀ c ∈ s, c = 48 ∨ c = 49)
    (h8 : s.length % 8 ≠ 0) :
    (binBytes s).flatMap byteToBits =
      s.take (8 * (s.length / 8)) ++ List.replicate (8 - s.length % 8) 48 ++
        s.drop (8 * (s.length / 8)) := by
  induction s using binBytes.induct with
  | case1 => simp at h8
  | case2 c1 c2 c3 c4 c5 c6 c7 c8 rest ih =>
    have hg : ∀ c ∈ [c1, c2, c3, c4, c5, c6, c7, c8], c = 48 ∨ c = 49 := by
      intro c hc
      apply hb c
      simp only [List.mem_cons, List.not_mem_nil, or_false] at hc ⊢
      tauto
    have hrest : ∀ c ∈ rest, c = 48 ∨ c = 49 := by
      intro c hc
      apply hb c
      simp [hc]
    have hsl : (c1 :: c2 :: c3 :: c4 :: c5 :: c6 :: c7 :: c8 :: rest).length
        = rest.length + 8 := by simp only [List.length_cons]
    have hrl : rest.length % 8 ≠ 0 := by rw [hsl] at h8; omega
    rw [binBytes_cons8]
    simp only [List.flatMap_cons]
    rw [byteToBits_toByte _ hg (by simp), ih hrest hrl]
    have heq : c1 :: c2 :: c3 :: c4 :: c5 :: c6 :: c7 :: c8 :: rest =
        [c1, c2, c3, c4, c5, c6, c7, c8] ++ rest := rfl
    rw [hsl, heq]
    have hdiv : 8 * ((rest.length + 8) / 8) = 8 + 8 * (rest.length / 8) := by omega
    have hmod : (rest.length + 8) % 8 = rest.length % 8 := by omega
    rw [hdiv, hmod, take_add_split 8 (8 * (rest.length / 8))]
    rw [List.take_left' (show ([c1, c2, c3, c4, c5, c6, c7, c8] : Str).length = 8 by simp),
      List.drop_left' (show ([c1, c2, c3, c4, c5, c6, c7, c8] : Str).length = 8 by simp)]
    have hdrop : List.drop (8 + 8 * (rest.length / 8))
        ([c1, c2, c3, c4, c5, c6, c7, c8] ++ rest) =
          List.drop (8 * (rest.length / 8)) rest := by
      rw [← List.drop_drop, List.drop_left' (show ([c1, c2, c3, c4, c5, c6, c7, c8] : Str).length = 8 by simp)]
    rw [hdrop]
    simp [List.append_assoc]
  | case3 s hn hs =>
    have h0 : s ≠ [] := fun h => hn h
    have h7 : s.length ≤ 7 := by
      by_contra hcon
      obtain ⟨c1, c2, c3, c4, c5, c6, c7, c8, rest, rfl⟩ :=
        length_ge8_decomp s (by omega)
      exact hs c1 c2 c3 c4 c5 c6 c7 c8 rest rfl
    have h1 : 1 ≤ s.length := by
      rcases s with _ | ⟨a, s⟩
      · exact absurd rfl h0
      · simp
    rw [binBytes_short s h0 h7]
    simp only [List.flatMap_cons, List.flatMap_nil, List.append_nil]
    rw [byteToBits_toByte s hb (by omega)]
    have hq : s.length / 8 = 0 := by omega
    have hm : s.length % 8 = s.length := by omega
    rw [hq, hm]
    simp

/-- `binBytes` inverts the 8-bit rendering of a byte list. -/
theorem binBytes_flatMap_byteToBits : ∀ bs : List Nat, (∀ b ∈ bs, b < 256) →
    binBytes (bs.flatMap byteToBits) = bs := by
  intro bs
  induction bs with
  | nil => intro _; rfl
  | cons b bs ih =>
    intro hlt
    simp only [List.flatMap_cons]
    rw [binBytes_append8 _ _ (show (byteToBits b).length = 8 from length_bitsOfNat 8 b),
      toByte_byteToBits b (hlt b (by simp)), ih fun x hx => hlt x (by simp [hx])]

/-- `decode ∘ encode` always succeeds and renders the grouped bytes. -/
theorem decodeEncode_eq (b : Str) :
    decodeEncode b = some ((binBytes b).flatMap byteToBits) := by
  show (match hexToBytes ((hexEncode (binBytes b)).map toUpperChar) with
    | some bs => some (bs.flatMap byteToBits)
    | none => none) = _
  rw [hexToBytes_hexEncode _ (binBytes_lt b)]

/-- `hex.DecodeString` succeeds exactly on even-length strings of hex
digits, and re-encoding its bytes in lowercase and uppercasing gives the
uppercased input. -/
theorem hexToBytes_spec : ∀ h : Str, h.length % 2 = 0 →
    (∀ c ∈ h, (hexDigitVal c).isSome) →
    ∃ bs, hexToBytes h = some bs ∧ (∀ b ∈ bs, b < 256) ∧
      (hexEncode bs).map toUpperChar = h.map toUpperChar := by
  intro h
  induction h using hexToBytes.induct with
  | case1 =>
    intro _ _
    exact ⟨[], rfl, by simp, by simp [hexEncode]⟩
  | case2 a =>
    intro hlen _
    simp at hlen
  | case3 a b rest hi lo tl ht hvb hva ih =>
    intro hlen hdig
    have hhi : hi < 16 := hexDigitVal_lt a hi hva
    have hlo : lo < 16 := hexDigitVal_lt b lo hvb
    have hlen' : rest.length % 2 = 0 := by
      simp only [List.length_cons] at hlen
      omega
    obtain ⟨bs, h1, h2, h3⟩ :=
      ih hlen' fun c hc => hdig c (by simp [hc])
    refine ⟨(hi * 16 + lo) :: bs, ?_, ?_, ?_⟩
    · show (match hexDigitVal a, hexDigitVal b, hexToBytes rest with
        | some hi, some lo, some tl => some ((hi * 16 + lo) :: tl)
        | _, _, _ => none) = _
      rw [hva, hvb, h1]
    · intro x hx
      rcases List.mem_cons.mp hx with rfl | hx
      · omega
      · exact h2 x hx
    · have hdivq : (hi * 16 + lo) / 16 = hi := by omega
      have hmodq : (hi * 16 + lo) % 16 = lo := by omega
      simp only [hexEncode, List.flatMap_cons, List.map_cons, List.map_append,
        List.cons_append, List.nil_append, hdivq, hmodq] at h3 ⊢
      rw [toUpper_lowerHexDigit a hi hva, toUpper_lowerHexDigit b lo hvb]
      rw [h3]
  | case4 a b rest hfail ih =>
    intro hlen hdig
    obtain ⟨hi, hva⟩ := Option.isSome_iff_exists.mp (hdig a (by simp))
    obtain ⟨lo, hvb⟩ := Option.isSome_iff_exists.mp (hdig b (by simp))
    have hlen' : rest.length % 2 = 0 := by
      simp only [List.length_cons] at hlen
      omega
    obtain ⟨bs, h1, _, _⟩ :=
      ih hlen' fun c hc => hdig c (by simp [hc])
    exact (hfail hi lo bs hva hvb h1).elim

/-! ### Claim theorems for the codec -/

/-- C8: for every bit string `b` (characters `'0'`/`'1'`) whose length is
a multiple of 8, `hexToBin` applied to the hex string produced by
`binToHex b` returns exactly `b`. -/
theorem c8_roundtrip_multiple_of_8 (b : Str) (hb : ∀ c ∈ b, c = 48 ∨ c = 49)
    (h8 : b.length % 8 = 0) : decodeEncode b = some b := by
  rw [decodeEncode_eq, flatMap_binBytes_full b hb h8]

theorem c8_witness :
    decodeEncode (s2b "01000001") = some (s2b "01000001") :=
  c8_roundtrip_multiple_of_8 (s2b "01000001") (by decide) (by decide)

/-- C1 (counterexample): for `b = "1"`, `decode(encode(b))` is
`"00000001"`, not `b` followed by trailing zero bits (`"10000000"`): the
padding zeros precede the real bit inside the final 8-bit group. -/
theorem c1_counterexample :
    decodeEncode (s2b "1") = some (s2b "00000001") ∧
      decodeEncode (s2b "1") ≠ some (s2b "1" ++ List.replicate 7 48) := by decide

/-- C1 (amended): for every bit string `b` whose length is not a multiple
of 8, `decode(encode(b))` has length `8*ceil(len(b)/8)` and consists of
the complete 8-bit groups of `b` unchanged, then `8 - len(b) % 8` zero
characters, then the final `len(b) % 8` bits of `b`: the padding bits are
leading zeros within the final group, not appended trailing zeros. -/
theorem c1_amended_padding (b : Str) (hb : ∀ c ∈ b, c = 48 ∨ c = 49)
    (h8 : b.length % 8 ≠ 0) :
    decodeEncode b = some (b.take (8 * (b.length / 8)) ++
        List.replicate (8 - b.length % 8) 48 ++ b.drop (8 * (b.length / 8))) ∧
      (b.take (8 * (b.length / 8)) ++ List.replicate (8 - b.length % 8) 48 ++
        b.drop (8 * (b.length / 8))).length = 8 * ((b.length + 7) / 8) := by
  constructor
  · rw [decodeEncode_eq, flatMap_binBytes_partial b hb h8]
  · have hmin : min (8 * (b.length / 8)) b.length = 8 * (b.length / 8) := by omega
    simp only [List.length_append, List.length_replicate, List.length_take,
      List.length_drop, hmin]
    omega

theorem c1_witness :
    decodeEncode (s2b "1") = some ((s2b "1").take (8 * ((s2b "1").length / 8)) ++
        List.replicate (8 - (s2b "1").length % 8) 48 ++
        (s2b "1").drop (8 * ((s2b "1").length / 8))) ∧
      ((s2b "1").take (8 * ((s2b "1").length / 8)) ++
        List.replicate (8 - (s2b "1").length % 8) 48 ++
        (s2b "1").drop (8 * ((s2b "1").length / 8))).length =
      8 * (((s2b "1").length + 7) / 8) :=
  c1_amended_padding (s2b "1") (by decide) (by decide)

/-- C3 (code evaluated at the failing input): on the payload `"0102"`,
which contains the invalid character `'2'`, `binToHex` returns the hex
string `"06"` together with a nil error (`some`), instead of failing:
the code performs no input validation at all. -/
theorem c3_invalid_char_no_error :
    binToHex (s2b "0102") = some (s2b "06") := by decide

/-- C9: for every valid hex string (even length, hex digits in either
case), encoding the binary expansion produced by `hexToBin` yields the
uppercased input. -/
theorem c9_hex_roundtrip (h : Str) (heven : h.length % 2 = 0)
    (hdig : ∀ c ∈ h, (hexDigitVal c).isSome) :
    ∃ bits, hexToBin h = some bits ∧
      binToHex bits = some (h.map toUpperChar) := by
  obtain ⟨bs, h1, h2, h3⟩ := hexToBytes_spec h heven hdig
  refine ⟨bs.flatMap byteToBits, ?_, ?_⟩
  · unfold hexToBin
    rw [h1]
  · unfold binToHex
    rw [binBytes_flatMap_byteToBits bs h2, h3]

theorem c9_witness :
    ∃ bits, hexToBin (s2b "a4") = some bits ∧
      binToHex bits = some ((s2b "a4").map toUpperChar) :=
  c9_hex_roundtrip (s2b "a4") (by decide) (by decide)

/-! ### Association-list facts about the cache map -/

theorem mem_map_fst {es : List (Str × Str)} {k v : Str} (h : (k, v) ∈ es) :
    k ∈ es.map Prod.fst :=
  List.mem_map_of_mem Prod.fst h

theorem lookup_eq_none_iff (es : List (Str × Str)) (k : Str) :
    lookupEntry es k = none ↔ k ∉ es.map Prod.fst := by
  induction es with
  | nil => simp [lookupEntry]
  | cons kv tl ih =>
    simp only [lookupEntry, List.map_cons, List.mem_cons]
    split_ifs with h
    · subst h
      simp
    · simp only [ih]
      constructor
      · intro hn hc
        rcases hc with hc | hc
        · exact h hc.symm
        · exact hn hc
      · intro hn
        exact fun hc => hn (Or.inr hc)

theorem lookup_mem {es : List (Str × Str)} {k v : Str}
    (h : lookupEntry es k = some v) : (k, v) ∈ es := by
  induction es with
  | nil => simp [lookupEntry] at h
  | cons kv tl ih =>
    simp only [lookupEntry] at h
    split_ifs at h with hk
    · have hv : kv.2 = v := Option.some_inj.mp h
      have : kv = (k, v) := by
        rw [← hk, ← hv]
      simp [this]
    · simp [ih h]

theorem lookup_of_mem_nodup {es : List (Str × Str)} {k v : Str}
    (hm : (k, v) ∈ es) (hnd : (es.map Prod.fst).Nodup) :
    lookupEntry es k = some v := by
  induction es with
  | nil => simp at hm
  | cons kv tl ih =>
    simp only [List.map_cons, List.nodup_cons] at hnd
    rcases List.mem_cons.mp hm with rfl | hm
    · simp [lookupEntry]
    · have hk : kv.1 ≠ k := by
        intro he
        exact hnd.1 (he ▸ mem_map_fst hm)
      simp only [lookupEntry, if_neg hk]
      exact ih hm hnd.2

theorem removeEntry_not_mem : ∀ (es : List (Str × Str)) (k : Str),
    k ∉ es.map Prod.fst → removeEntry es k = es := by
  intro es k
  induction es with
  | nil => intro _; rfl
  | cons kv tl ih =>
    intro h
    simp only [List.map_cons, List.mem_cons, not_or] at h
    obtain ⟨h1, h2⟩ := h
    have hb : (kv.1 != k) = true := by
      simp only [bne_iff_ne, ne_eq]
      exact fun he => h1 he.symm
    have ih2 : removeEntry tl k = tl := ih h2
    unfold removeEntry at ih2 ⊢
    rw [List.filter_cons, hb]
    simp [ih2]

theorem removeEntry_head (k0 : Str) (v0 : Str) (tl : List (Str × Str))
    (h : k0 ∉ tl.map Prod.fst) : removeEntry ((k0, v0) :: tl) k0 = tl := by
  have hb : (((k0, v0).1 != k0) = false) := by simp
  have ih2 : removeEntry tl k0 = tl := removeEntry_not_mem tl k0 h
  unfold removeEntry at ih2 ⊢
  rw [List.filter_cons, hb]
  simp [ih2]

/-! ### Cache claims: zero capacity and first-write-wins -/

/-- C4 (code evaluated at the failing configuration): on a cache built by
`NewCache 0`, every `Set` of a fresh key reaches the eviction branch with
an empty `keys` slice and faults with an index-out-of-range (`none`): the
zero-capacity cache is not a safe no-op. -/
theorem c4_zero_capacity_set_panics (k v : Str) :
    Cache.Set (NewCache 0) k v = none := rfl

/-- C7: `Set` with a key already present is a no-op (first write wins):
the cache, hence its stored value for the key, its set of entries and its
insertion-order key sequence, is returned unchanged, and nothing is
evicted. -/
theorem c7_set_present_noop (c : Cache) (k v v0 : Str)
    (h : c.Get k = some v0) : c.Set k v = some c := by
  unfold Cache.Get at h
  unfold Cache.Set
  rw [h]

theorem c7_witness :
    Cache.Set ⟨2, [(s2b "k", s2b "w")], [s2b "k"]⟩ (s2b "k") (s2b "x") =
      some ⟨2, [(s2b "k", s2b "w")], [s2b "k"]⟩ :=
  c7_set_present_noop ⟨2, [(s2b "k", s2b "w")], [s2b "k"]⟩ (s2b "k")
    (s2b "x") (s2b "w") (by decide)

/-! ### `Set` preserves the cache invariant -/

theorem set_preserves (c : Cache) (k v : Str) (hinv : CacheInv c)
    (hmax : 1 ≤ c.maxEntries) :
    ∃ d, c.Set k v = some d ∧ CacheInv d ∧ d.maxEntries = c.maxEntries ∧
      ∀ kv ∈ d.entries, kv ∈ c.entries ∨ kv = (k, v) := by
  obtain ⟨hmap, hnd, hlen⟩ := hinv
  unfold Cache.Set
  cases hl : lookupEntry c.entries k with
  | some w =>
    exact ⟨c, rfl, ⟨hmap, hnd, hlen⟩, rfl, fun kv h => Or.inl h⟩
  | none =>
    have hk : k ∉ c.entries.map Prod.fst := (lookup_eq_none_iff _ _).mp hl
    have hkk : k ∉ c.keys := hmap ▸ hk
    by_cases hful : c.entries.length ≥ c.maxEntries
    · rw [if_pos hful]
      have hkeys_len : c.keys.length = c.entries.length := by
        rw [← hmap]; simp
      have hpos : 1 ≤ c.entries.length := le_trans hmax hful
      cases hks : c.keys with
      | nil =>
        rw [hks] at hkeys_len
        simp at hkeys_len
        omega
      | cons oldest restKeys =>
        cases hes : c.entries with
        | nil => rw [hes] at hpos; simp at hpos
        | cons e0 etl =>
          have hmap2 : e0.1 = oldest ∧ etl.map Prod.fst = restKeys := by
            rw [hes, hks] at hmap
            simp only [List.map_cons, List.cons.injEq] at hmap
            exact hmap
          have hnd2 : oldest ∉ restKeys ∧ restKeys.Nodup := by
            rw [hks] at hnd
            exact List.nodup_cons.mp hnd
          have hrem : removeEntry (e0 :: etl) oldest = etl := by
            have he0 : e0 = (oldest, e0.2) := by
              rw [← hmap2.1]
            rw [he0]
            apply removeEntry_head
            rw [hmap2.2]
            exact hnd2.1
          refine ⟨⟨c.maxEntries, removeEntry (e0 :: etl) oldest ++ [(k, v)],
            restKeys ++ [k]⟩, rfl, ?_, rfl, ?_⟩
          · refine ⟨?_, ?_, ?_⟩
            · show (removeEntry (e0 :: etl) oldest ++ [(k, v)]).map Prod.fst =
                restKeys ++ [k]
              rw [hrem]
              simp [hmap2.2]
            · show (restKeys ++ [k]).Nodup
              simp only [List.nodup_append, List.nodup_cons, List.nodup_nil]
              refine ⟨hnd2.2, by simp, ?_⟩
              simp only [List.disjoint_singleton]
              intro hc
              exact hkk (hks ▸ List.mem_cons_of_mem oldest hc)
            · show (removeEntry (e0 :: etl) oldest ++ [(k, v)]).length ≤ c.maxEntries
              rw [hrem]
              have hetl : c.entries.length = etl.length + 1 := by
                rw [hes]; simp
              simp only [List.length_append, List.length_cons, List.length_nil]
              omega
          · intro kv hkv
            simp only at hkv
            rw [hrem] at hkv
            rcases List.mem_append.mp hkv with hkv | hkv
            · exact Or.inl (List.mem_cons_of_mem e0 hkv)
            · exact Or.inr (List.mem_singleton.mp hkv)
    · rw [if_neg hful]
      refine ⟨⟨c.maxEntries, c.entries ++ [(k, v)], c.keys ++ [k]⟩,
        rfl, ⟨?_, ?_, ?_⟩, rfl, ?_⟩
      · simp [hmap]
      · simp only [List.nodup_append, List.nodup_cons, List.nodup_nil,
          List.disjoint_singleton]
        exact ⟨hnd, by simp, hkk⟩
      · simp only [List.length_append, List.length_cons, List.length_nil]
        omega
      · intro kv hkv
        rcases List.mem_append.mp hkv with hkv | hkv
        · exact Or.inl hkv
        · exact Or.inr (List.mem_singleton.mp hkv)

theorem runOps_preserves : ∀ (ops : List CacheOp) (c : Cache),
    CacheInv c → 1 ≤ c.maxEntries →
    ∃ d, runOps ops c = some d ∧ CacheInv d ∧ d.maxEntries = c.maxEntries := by
  intro ops
  induction ops with
  | nil => intro c h _; exact ⟨c, rfl, h, rfl⟩
  | cons op rest ih =>
    intro c h hm
    cases op with
    | get k => exact ih c h hm
    | set k v =>
      obtain ⟨d, hset, hinv2, hmax2, _⟩ := set_preserves c k v h hm
      obtain ⟨e, hrun, hinv3, hmax3⟩ := ih d hinv2 (hmax2 ▸ hm)
      refine ⟨e, ?_, hinv3, hmax3.trans hmax2⟩
      show (match c.Set k v with
        | some cNext => runOps rest cNext
        | none => none) = some e
      rw [hset]
      exact hrun

/-- Inserting fresh, pairwise-distinct keys while below capacity appends
them to the map and to the key order, in order, with no eviction. -/
theorem insertAll_fresh : ∀ (kvs : List (Str × Str)) (c : Cache),
    CacheInv c →
    (∀ kv ∈ kvs, kv.1 ∉ c.entries.map Prod.fst) →
    (kvs.map Prod.fst).Nodup →
    c.entries.length + kvs.length ≤ c.maxEntries →
    insertAll kvs c =
      some ⟨c.maxEntries, c.entries ++ kvs, c.keys ++ kvs.map Prod.fst⟩ := by
  intro kvs
  induction kvs with
  | nil => intro c _ _ _ _; simp [insertAll]
  | cons kv rest ih =>
    intro c hinv hfresh hnd hcap
    obtain ⟨hmap, hnodup, hlen⟩ := hinv
    have hlk : lookupEntry c.entries kv.1 = none :=
      (lookup_eq_none_iff _ _).mpr (hfresh kv (by simp))
    have hlt : ¬ (c.entries.length ≥ c.maxEntries) := by
      simp only [List.length_cons] at hcap
      omega
    have hset : c.Set kv.1 kv.2 =
        some ⟨c.maxEntries, c.entries ++ [kv], c.keys ++ [kv.1]⟩ := by
      unfold Cache.Set
      rw [hlk, if_neg hlt]
    show (match c.Set kv.1 kv.2 with
      | some cNext => insertAll rest cNext
      | none => none) = _
    rw [hset]
    show insertAll rest ⟨c.maxEntries, c.entries ++ [kv], c.keys ++ [kv.1]⟩ = _
    have hkk : kv.1 ∉ c.keys := hmap ▸ hfresh kv (by simp)
    have hinv2 : CacheInv ⟨c.maxEntries, c.entries ++ [kv], c.keys ++ [kv.1]⟩ := by
      refine ⟨by simp [hmap], ?_, ?_⟩
      · simp only [List.nodup_append, List.nodup_cons, List.nodup_nil,
          List.disjoint_singleton]
        exact ⟨hnodup, by simp, hkk⟩
      · show (c.entries ++ [kv]).length ≤ c.maxEntries
        simp only [List.length_append, List.length_cons, List.length_nil]
        omega
    have hndrest : (rest.map Prod.fst).Nodup := by
      simp only [List.map_cons, List.nodup_cons] at hnd
      exact hnd.2
    have hfresh2 : ∀ x ∈ rest, x.1 ∉ (c.entries ++ [kv]).map Prod.fst := by
      intro x hx
      simp only [List.map_append, List.map_cons, List.map_nil, List.mem_append,
        List.mem_cons, List.not_mem_nil, or_false, not_or]
      refine ⟨hfresh x (by simp [hx]), ?_⟩
      simp only [List.map_cons, List.nodup_cons] at hnd
      intro he
      exact hnd.1 (he ▸ List.mem_map_of_mem Prod.fst hx)
    have hcap2 : (c.entries ++ [kv]).length + rest.length ≤ c.maxEntries := by
      simp only [List.length_append, List.length_cons, List.length_nil] at hcap ⊢
      omega
    rw [ih ⟨c.maxEntries, c.entries ++ [kv], c.keys ++ [kv.1]⟩ hinv2 hfresh2
      hndrest hcap2]
    simp [List.append_assoc]

theorem insertAll_append : ∀ (A B : List (Str × Str)) (c : Cache),
    insertAll (A ++ B) c =
      match insertAll A c with
      | some d => insertAll B d
      | none => none := by
  intro A
  induction A with
  | nil => intro B c; rfl
  | cons kv A ih =>
    intro B c
    show (match c.Set kv.1 kv.2 with
      | some cNext => insertAll (A ++ B) cNext
      | none => none) = _
    cases hset : c.Set kv.1 kv.2 with
    | some cNext =>
      show insertAll (A ++ B) cNext = _
      rw [ih B cNext]
      have : insertAll (kv :: A) c = insertAll A cNext := by
        show (match c.Set kv.1 kv.2 with
          | some cNext => insertAll A cNext
          | none => none) = _
        rw [hset]
      rw [this]
    | none =>
      have : insertAll (kv :: A) c = none := by
        show (match c.Set kv.1 kv.2 with
          | some cNext => insertAll A cNext
          | none => none) = _
        rw [hset]
      rw [this]

/-- A `Set` of a fresh key on a full cache evicts exactly the head of the
key order. -/
theorem set_full_evicts (c : Cache) (k v : Str) (e0 : Str × Str)
    (etl : List (Str × Str))
    (hes : c.entries = e0 :: etl)
    (hmap : c.entries.map Prod.fst = c.keys)
    (hnd : (c.entries.map Prod.fst).Nodup)
    (hlk : lookupEntry c.entries k = none)
    (hful : c.entries.length ≥ c.maxEntries) :
    c.Set k v = some ⟨c.maxEntries, etl ++ [(k, v)],
      etl.map Prod.fst ++ [k]⟩ := by
  unfold Cache.Set
  rw [hlk, if_pos hful]
  have hkeys : c.keys = e0.1 :: etl.map Prod.fst := by
    rw [← hmap, hes]
    simp
  rw [hkeys]
  show some (Cache.mk c.maxEntries (removeEntry c.entries e0.1 ++ [(k, v)])
      (etl.map Prod.fst ++ [k])) =
    some (Cache.mk c.maxEntries (etl ++ [(k, v)]) (etl.map Prod.fst ++ [k]))
  have hrem : removeEntry c.entries e0.1 = etl := by
    rw [hes]
    have he : e0 = (e0.1, e0.2) := rfl
    rw [he]
    apply removeEntry_head
    rw [hes] at hnd
    simp only [List.map_cons, List.nodup_cons] at hnd
    exact hnd.1
  rw [hrem]

/-- C6: for every capacity `C ≥ 1`, every sequence of `Get`/`Set`
operations from the empty cache succeeds and maintains the cache
invariant (at most `C` entries; the `keys` sequence lists exactly the
mapping's keys, oldest-inserted first, without repetition); and inserting
`C + 1` distinct keys from the empty cache evicts exactly the
first-inserted key (`Get` on it is not-found) while the other `C` keys
remain retrievable with their original values. -/
theorem c6_cache_invariant (C : Nat) (hC : 1 ≤ C) :
    (∀ ops : List CacheOp,
      ∃ c, runOps ops (NewCache C) = some c ∧ CacheInv c) ∧
    (∀ kvs : List (Str × Str), kvs.length = C + 1 →
      (kvs.map Prod.fst).Nodup →
      ∃ c hd tl, kvs = hd :: tl ∧ insertAll kvs (NewCache C) = some c ∧
        c.Get hd.1 = none ∧ ∀ kv ∈ tl, c.Get kv.1 = some kv.2) := by
  have hinv0 : CacheInv (NewCache C) := ⟨rfl, List.nodup_nil, by simp [NewCache]⟩
  constructor
  · intro ops
    obtain ⟨c, h1, h2, _⟩ := runOps_preserves ops (NewCache C) hinv0 hC
    exact ⟨c, h1, h2⟩
  · intro kvs hlen hnd
    have hne : kvs ≠ [] := by
      intro h
      rw [h] at hlen
      simp only [List.length_nil] at hlen
      omega
    obtain ⟨A, z, hkvs⟩ := (List.eq_nil_or_concat kvs).resolve_left hne
    rw [List.concat_eq_append] at hkvs
    subst hkvs
    have hAlen : A.length = C := by
      simp only [List.length_append, List.length_cons, List.length_nil] at hlen
      omega
    obtain ⟨hd, A2, rfl⟩ : ∃ hd A2, A = hd :: A2 := by
      cases A with
      | nil =>
        simp only [List.length_nil] at hAlen
        omega
      | cons hd A2 => exact ⟨hd, A2, rfl⟩
    rw [List.map_append, List.map_cons, List.map_cons, List.map_nil] at hnd
    have hndA : (hd.1 :: A2.map Prod.fst).Nodup := (List.nodup_append.mp hnd).1
    have hdisj : (hd.1 :: A2.map Prod.fst).Disjoint [z.1] :=
      (List.nodup_append.mp hnd).2.2
    have hfrz : z.1 ∉ (hd :: A2).map Prod.fst := by
      intro hc
      rw [List.map_cons] at hc
      exact hdisj hc (by simp)
    have hinsA := insertAll_fresh (hd :: A2) (NewCache C) hinv0
      (by intro kv _; simp [NewCache]) (by rw [List.map_cons]; exact hndA)
      (by
        simp only [NewCache, List.length_cons, List.length_nil]
        simp only [List.length_cons] at hAlen
        omega)
    have hinsA2 : insertAll (hd :: A2) (NewCache C) =
        some ⟨C, hd :: A2, (hd :: A2).map Prod.fst⟩ := by
      rw [hinsA]
      simp [NewCache]
    have hsetz := set_full_evicts ⟨C, hd :: A2, (hd :: A2).map Prod.fst⟩
      z.1 z.2 hd A2 rfl rfl
      (by rw [List.map_cons]; exact hndA)
      ((lookup_eq_none_iff _ _).mpr hfrz)
      (by
        show (hd :: A2).length ≥ C
        omega)
    have hfull : insertAll ((hd :: A2) ++ [z]) (NewCache C) =
        some ⟨C, A2 ++ [(z.1, z.2)], A2.map Prod.fst ++ [z.1]⟩ := by
      rw [insertAll_append, hinsA2]
      show (match Cache.Set ⟨C, hd :: A2, (hd :: A2).map Prod.fst⟩ z.1 z.2 with
        | some cNext => insertAll [] cNext
        | none => none) = _
      rw [hsetz]
      rfl
    refine ⟨⟨C, A2 ++ [(z.1, z.2)], A2.map Prod.fst ++ [z.1]⟩, hd, A2 ++ [z],
      by simp, hfull, ?_, ?_⟩
    · apply (lookup_eq_none_iff _ _).mpr
      show hd.1 ∉ (A2 ++ [(z.1, z.2)]).map Prod.fst
      rw [List.map_append, List.map_cons, List.map_nil]
      intro hc
      rcases List.mem_append.mp hc with hc | hc
      · exact (List.nodup_cons.mp hndA).1 hc
      · exact hdisj (by simp) hc
    · intro kv hkv
      show lookupEntry (A2 ++ [(z.1, z.2)]) kv.1 = some kv.2
      apply lookup_of_mem_nodup
      · show (kv.1, kv.2) ∈ A2 ++ [(z.1, z.2)]
        have hz : ((z.1, z.2) : Str × Str) = z := rfl
        have hkv2 : ((kv.1, kv.2) : Str × Str) = kv := rfl
        rw [hz, hkv2]
        exact hkv
      · rw [List.map_append, List.map_cons, List.map_nil]
        have h2 : (hd.1 :: (A2.map Prod.fst ++ [z.1])).Nodup := by
          rw [← List.cons_append]
          exact hnd
        exact (List.nodup_cons.mp h2).2

theorem c6_witness :
    (∃ c, runOps [CacheOp.set (s2b "a") (s2b "x"), CacheOp.get (s2b "a")]
        (NewCache 1) = some c ∧ CacheInv c) ∧
    (∃ c hd tl, [(s2b "a", s2b "x"), (s2b "b", s2b "y")] = hd :: tl ∧
      insertAll [(s2b "a", s2b "x"), (s2b "b", s2b "y")] (NewCache 1) = some c ∧
      c.Get hd.1 = none ∧ ∀ kv ∈ tl, c.Get kv.1 = some kv.2) :=
  ⟨(c6_cache_invariant 1 (by decide)).1
      [CacheOp.set (s2b "a") (s2b "x"), CacheOp.get (s2b "a")],
    (c6_cache_invariant 1 (by decide)).2
      [(s2b "a", s2b "x"), (s2b "b", s2b "y")] (by decide) (by decide)⟩

/-! ### The line split -/

theorem splitOnColon_head : ∀ l : Str,
    ∃ ps, splitOnColon l = l.takeWhile (fun c => c != 58) :: ps := by
  intro l
  induction l with
  | nil => exact ⟨[], rfl⟩
  | cons c rest ih =>
    by_cases hc : c = 58
    · subst hc
      refine ⟨splitOnColon rest, ?_⟩
      show (if (58 : Nat) = 58 then [] :: splitOnColon rest
        else match splitOnColon rest with
          | [] => [[58]]
          | p :: ps => (58 :: p) :: ps) = _
      rw [if_pos rfl]
      simp [List.takeWhile_cons]
    · obtain ⟨ps, hps⟩ := ih
      refine ⟨ps, ?_⟩
      show (if c = 58 then [] :: splitOnColon rest
        else match splitOnColon rest with
          | [] => [[c]]
          | p :: ps => (c :: p) :: ps) = _
      rw [if_neg hc, hps]
      simp [List.takeWhile_cons, hc]

theorem split_with_colon : ∀ (a rest : Str), (∀ c ∈ a, c ≠ 58) →
    splitOnColon (a ++ 58 :: rest) = a :: splitOnColon rest := by
  intro a
  induction a with
  | nil =>
    intro rest _
    show (if (58 : Nat) = 58 then [] :: splitOnColon rest
      else match splitOnColon rest with
        | [] => [[58]]
        | p :: ps => (58 :: p) :: ps) = _
    rw [if_pos rfl]
  | cons c a ih =>
    intro rest h
    have hc : c ≠ 58 := h c (by simp)
    show (if c = 58 then [] :: splitOnColon (a ++ 58 :: rest)
      else match splitOnColon (a ++ 58 :: rest) with
        | [] => [[c]]
        | p :: ps => (c :: p) :: ps) = _
    rw [if_neg hc, ih rest fun x hx => h x (by simp [hx])]

/-- C5 (counterexample): on the line `"1:0:1"`, the code hands the
payload `"0"` (the segment between the first and second colon) to the
codec, not the entire substring `"0:1"` after the first colon. -/
theorem c5_counterexample :
    lineParts (s2b "1:0:1") = some (s2b "1", s2b "0") ∧
      (s2b "0" : Str) ≠ s2b "0:1" := by decide

/-- C5 (amended): a line with at least one colon is split at every colon;
the size token passed through is the segment before the first colon, and
the payload handed to `encode` is the segment strictly between the first
colon and the following colon or end of line (content after a second
colon is dropped).  For a line with exactly one colon this payload is the
entire substring after it. -/
theorem c5_amended_split (a rest : Str) (ha : ∀ c ∈ a, c ≠ 58) :
    lineParts (a ++ 58 :: rest) =
      some (a, rest.takeWhile (fun c => c != 58)) := by
  unfold lineParts
  rw [split_with_colon a rest ha]
  obtain ⟨ps, hps⟩ := splitOnColon_head rest
  rw [hps]

theorem c5_witness :
    lineParts (s2b "4" ++ 58 :: s2b "01") =
      some (s2b "4", (s2b "01").takeWhile (fun c => c != 58)) :=
  c5_amended_split (s2b "4") (s2b "01") (by decide)

/-- C2 (code evaluated at the failing input): a line without a colon makes
both pipelines fault with an index-out-of-range on `parts[1]`
(`Outcome.panicked`), rather than returning an error value
(`Outcome.errored`) as a FormatError would. -/
theorem c2_no_colon_panics :
    convertWithoutCache [s2b "0100"] = Outcome.panicked ∧
      convertWithCache [s2b "0100"] (NewCache 5000) = Outcome.panicked := by
  decide

/-! ### The two pipelines agree -/

theorem wf_lineParts (l : Str) (h : wellFormedLine l = true) :
    ∃ ms payload, lineParts l = some (ms, payload) := by
  unfold wellFormedLine at h
  cases hlp : lineParts l with
  | none =>
    rw [hlp] at h
    exact absurd h (by simp)
  | some p => exact ⟨p.1, p.2, rfl⟩

theorem encodeLine_eq (l ms payload : Str)
    (h : lineParts l = some (ms, payload)) :
    encodeLine l =
      .ok (ms ++ 58 :: (hexEncode (binBytes payload)).map toUpperChar) := by
  unfold encodeLine
  rw [h]
  rfl

theorem pipelines_aux : ∀ (lines : List Str) (cache : Cache),
    (∀ l ∈ lines, wellFormedLine l = true) → CacheInv cache →
    1 ≤ cache.maxEntries →
    (∀ kv ∈ cache.entries, encodeLine kv.1 = .ok kv.2) →
    ∃ outs d, convertWithCache lines cache = .ok (outs, d) ∧
      convertWithoutCache lines = .ok outs := by
  intro lines
  induction lines with
  | nil => intro cache _ _ _ _; exact ⟨[], cache, rfl, rfl⟩
  | cons line rest ih =>
    intro cache hwf hinv hmax henc
    have hwfl : wellFormedLine line = true := hwf line (by simp)
    obtain ⟨ms, payload, hlp⟩ := wf_lineParts line hwfl
    have hencl := encodeLine_eq line ms payload hlp
    cases hget : cache.Get line with
    | some v =>
      have hv : encodeLine line = .ok v := henc (line, v) (lookup_mem hget)
      obtain ⟨outs, d, h1, h2⟩ :=
        ih cache (fun l hl => hwf l (by simp [hl])) hinv hmax henc
      refine ⟨v :: outs, d, ?_, ?_⟩
      · simp only [convertWithCache, hget, h1]
      · simp only [convertWithoutCache, hv, h2]
    | none =>
      obtain ⟨d0, hset, hinv2, hmax2, hsub⟩ := set_preserves cache line
        (ms ++ 58 :: (hexEncode (binBytes payload)).map toUpperChar) hinv hmax
      have henc2 : ∀ kv ∈ d0.entries, encodeLine kv.1 = .ok kv.2 := by
        intro kv hkv
        rcases hsub kv hkv with h | h
        · exact henc kv h
        · rw [h]
          exact hencl
      obtain ⟨outs, d, h1, h2⟩ :=
        ih d0 (fun l hl => hwf l (by simp [hl])) hinv2 (hmax2 ▸ hmax) henc2
      refine ⟨(ms ++ 58 :: (hexEncode (binBytes payload)).map toUpperChar)
        :: outs, d, ?_, ?_⟩
      · simp only [convertWithCache, hget, hencl, hset, h1]
      · simp only [convertWithoutCache, hencl, h2]

/-- C10: on input whose lines are all well-formed and any capacity
`C ≥ 1`, the cached and non-cached pipelines produce identical output;
in particular `4:01000001` yields `4:41` in both modes, and the repeated
line in cached mode yields `4:41` twice with the second served from the
cache, whose stored value is the composed output line. -/
theorem c10_pipelines_agree (lines : List Str) (C : Nat) (hC : 1 ≤ C)
    (hwf : ∀ l ∈ lines, wellFormedLine l = true) :
    (∃ outs d, convertWithoutCache lines = .ok outs ∧
        convertWithCache lines (NewCache C) = .ok (outs, d)) ∧
    convertWithoutCache [s2b "4:01000001"] = .ok [s2b "4:41"] ∧
    (∃ d, convertWithCache [s2b "4:01000001", s2b "4:01000001"] (NewCache C) =
        .ok ([s2b "4:41", s2b "4:41"], d) ∧
      d.Get (s2b "4:01000001") = some (s2b "4:41")) := by
  refine ⟨?_, by decide, ?_⟩
  · obtain ⟨outs, d, h1, h2⟩ := pipelines_aux lines (NewCache C) hwf
      ⟨rfl, List.nodup_nil, by simp [NewCache]⟩ hC
      (by intro kv h; simp [NewCache] at h)
    exact ⟨outs, d, h2, h1⟩
  · have hencl : encodeLine (s2b "4:01000001") = .ok (s2b "4:41") := by decide
    have hget0 : (NewCache C).Get (s2b "4:01000001") = none := rfl
    have hlt : ¬ ((NewCache C).entries.length ≥ (NewCache C).maxEntries) := by
      simp only [NewCache, List.length_nil]
      omega
    have hset : (NewCache C).Set (s2b "4:01000001") (s2b "4:41") =
        some ⟨C, [(s2b "4:01000001", s2b "4:41")], [s2b "4:01000001"]⟩ := by
      unfold Cache.Set
      rw [show lookupEntry (NewCache C).entries (s2b "4:01000001") = none
        from rfl]
      rw [if_neg hlt]
      rfl
    have hget1 : Cache.Get
        ⟨C, [(s2b "4:01000001", s2b "4:41")], [s2b "4:01000001"]⟩
        (s2b "4:01000001") = some (s2b "4:41") := by
      show (if (s2b "4:01000001", s2b "4:41").1 = s2b "4:01000001"
        then some (s2b "4:41")
        else lookupEntry [] (s2b "4:01000001")) = some (s2b "4:41")
      rw [if_pos rfl]
    refine ⟨⟨C, [(s2b "4:01000001", s2b "4:41")], [s2b "4:01000001"]⟩, ?_,
      hget1⟩
    simp only [convertWithCache, hget0, hencl, hset, hget1]

theorem c10_witness :
    (∃ outs d, convertWithoutCache [s2b "4:01000001"] = .ok outs ∧
        convertWithCache [s2b "4:01000001"] (NewCache 5000) = .ok (outs, d)) ∧
    convertWithoutCache [s2b "4:01000001"] = .ok [s2b "4:41"] ∧
    (∃ d, convertWithCache [s2b "4:01000001", s2b "4:01000001"]
        (NewCache 5000) = .ok ([s2b "4:41", s2b "4:41"], d) ∧
      d.Get (s2b "4:01000001") = some (s2b "4:41")) :=
  c10_pipelines_agree [s2b "4:01000001"] 5000 (by decide) (by decide)
